import Mathlib

/-!
Verification development for the pokedex repository.

The repository is a CLI Pokédex client (`main.go`), a REPL test
(`repl_test.go`), and an expiring cache package `internal/pokecache`
(present here only through its test and its callers).  This file gives a
shallow embedding of the parts the specification talks about:

* the expiring cache (`Cache`, `NewCache`, `Cache.Add`, `Cache.Get`, and
  the body of one reap tick `Cache.reap`), modelled from the spec because
  the `pokecache` package source itself is not in the snapshot;
* the pure parts of `main.go`: `cleanInput`, `determineCatchResult`,
  `commandCatchWithCache`, `commandInspect`, with I/O and randomness
  passed in as explicit oracle arguments.

Time is modelled by natural-number timestamps passed explicitly to the
operations that read the clock.  Byte slices (`[]byte`) are modelled as
`List Nat`.
-/

namespace Pokedex

/-! ## Association-list maps (Go `map[string]V` as used by the program) -/

/-- First-match lookup in an association list, the read of a Go map. -/
def mapFind {α : Type} (l : List (String × α)) (k : String) : Option α :=
  match l with
  | [] => none
  | (k₁, v) :: rest => if k₁ = k then some v else mapFind rest k

/-- Remove every binding of key `k`. -/
def mapErase {α : Type} : List (String × α) → String → List (String × α)
  | [], _ => []
  | (k₁, v) :: rest, k => if k₁ = k then mapErase rest k else (k₁, v) :: mapErase rest k

/-- Go map assignment `m[k] = v`: insert or overwrite the binding of `k`. -/
def mapInsert {α : Type} (l : List (String × α)) (k : String) (v : α) :
    List (String × α) :=
  (k, v) :: mapErase l k

/-! ## The expiring cache

Modelled from the spec: the `internal/pokecache` package source (`Cache`,
`NewCache`, `Add`, `Get` and the reap loop) is not in the repository
snapshot; only its test (`TestCache`) and its callers in `main.go` are.
The definitions below follow the spec's data model and component design:
an entry holds `createdAt` and an opaque byte value; the cache holds a
fixed `interval` and a key-unique `entries` map; `store` inserts or
overwrites with the current timestamp; `lookup` returns the value and
`true` exactly on presence; each reap tick removes exactly the entries
whose age `now - createdAt` is `≥ interval`.  The mutex makes each of
these operations atomic, which the model reflects by treating each as one
step; interleavings of concurrent callers are sequences of such steps. -/

structure cacheEntry where
  createdAt : Nat
  val : List Nat
deriving DecidableEq, Repr

structure Cache where
  interval : Nat
  entries : List (String × cacheEntry)
deriving DecidableEq, Repr

/-- Modelled from the spec: `newCache(interval)` returns an empty cache
with the given fixed interval (the background reaper it starts is
represented by explicit `Cache.reap` steps at the tick times). -/
def NewCache (interval : Nat) : Cache :=
  { interval := interval, entries := [] }

/-- Modelled from the spec: `store(key, value)` inserts or overwrites the
entry for `key` with the given value and the current timestamp. -/
def Cache.Add (c : Cache) (key : String) (v : List Nat) (now : Nat) : Cache :=
  { c with entries := mapInsert c.entries key ⟨now, v⟩ }

/-- Modelled from the spec: `lookup(key)` returns the current value and
`true` if `key` is present (regardless of its age), or a zero value and
`false` otherwise.  It does not read the clock. -/
def Cache.Get (c : Cache) (key : String) : List Nat × Bool :=
  match mapFind c.entries key with
  | some e => (e.val, true)
  | none => ([], false)

/-- Modelled from the spec: one tick of the reap loop at time `now`
removes every entry whose age `now - createdAt` is `≥ interval` and keeps
every younger entry. -/
def Cache.reap (c : Cache) (now : Nat) : Cache :=
  { c with entries := c.entries.filter (fun p => now - p.2.createdAt < c.interval) }

/-- One atomic cache operation, as serialised by the cache's mutex: a
caller's store, a caller's lookup, or one reap tick. -/
inductive CacheOp where
  | add (key : String) (v : List Nat) (now : Nat)
  | get (key : String)
  | reap (now : Nat)
deriving DecidableEq, Repr

/-- Effect of one serialised operation on the cache state (`get` reads
but does not change the state). -/
def applyOp (c : Cache) : CacheOp → Cache
  | .add k v t => c.Add k v t
  | .get _ => c
  | .reap t => c.reap t

/-- Effect of a serialised interleaving of operations. -/
def applyOps (c : Cache) (ops : List CacheOp) : Cache :=
  ops.foldl applyOp c

/-! ## Go `strings` / `unicode` library functions used by main.go -/

/-- Go `unicode.IsSpace`: the Unicode `White_Space` property, which holds
for exactly the code points U+0009–U+000D, U+0020, U+0085, U+00A0,
U+1680, U+2000–U+200A, U+2028, U+2029, U+202F, U+205F and U+3000. -/
def unicodeIsSpace (c : Char) : Bool :=
  decide ((9 ≤ c.toNat ∧ c.toNat ≤ 13) ∨ c.toNat = 32 ∨ c.toNat = 133 ∨
    c.toNat = 160 ∨ c.toNat = 5760 ∨ (8192 ≤ c.toNat ∧ c.toNat ≤ 8202) ∨
    c.toNat = 8232 ∨ c.toNat = 8233 ∨ c.toNat = 8239 ∨ c.toNat = 8287 ∨
    c.toNat = 12288)

/-- Go `strings.TrimSpace`: drop leading and trailing white space. -/
def stringsTrimSpace (s : String) : String :=
  ⟨((s.data.dropWhile unicodeIsSpace).reverse.dropWhile unicodeIsSpace).reverse⟩

/-- Go `strings.ToLower` on the program's inputs: per-character lowercase
mapping (`Char.toLower` is the A–Z ↦ a–z case mapping, the range the
program's ASCII command and Pokémon names exercise). -/
def stringsToLower (s : String) : String :=
  ⟨s.data.map Char.toLower⟩

/-- Accumulator pass of Go `strings.Fields`: `acc` holds the reversed
current word; a white-space character closes the current word, any other
character extends it. -/
def fieldsAux : List Char → List Char → List (List Char)
  | [], acc => if acc.isEmpty then [] else [acc.reverse]
  | c :: cs, acc =>
    if unicodeIsSpace c then
      if acc.isEmpty then fieldsAux cs [] else acc.reverse :: fieldsAux cs []
    else
      fieldsAux cs (c :: acc)

/-- Go `strings.Fields`: the maximal runs of non-white-space characters. -/
def stringsFields (s : String) : List String :=
  (fieldsAux s.data []).map (fun w => ⟨w⟩)

/-- `cleanInput` from `main.go`: trim, lowercase, split into fields. -/
def cleanInput (text : String) : List String :=
  stringsFields (stringsToLower (stringsTrimSpace text))

/-- The dispatch decision of the REPL loop in `main`: an empty word list
makes the loop `continue` (no command dispatched, modelled as `none`);
otherwise `words[0]` is the command and `words[1:]` the arguments. -/
def replDispatch (line : String) : Option (String × List String) :=
  match cleanInput line with
  | [] => none
  | w :: rest => some (w, rest)

/-- The bytes of an ASCII string literal, as Go's `[]byte(s)` (for ASCII
the UTF-8 bytes are the code points). -/
def strBytes (s : String) : List Nat :=
  s.data.map Char.toNat

/-! ## main.go data model -/

/-- `pokemonData` from `main.go`: the record stored in `cfg.Pokedex`.
`Stats` is a Go `map[string]int`, modelled as an association list. -/
structure pokemonData where
  Name : String
  Height : Int
  Weight : Int
  Stats : List (String × Int)
  Types : List String
deriving DecidableEq, Repr

/-- `config` from `main.go`.  `Commands` maps a command name to its
description; the function-valued `callback` field of `cliCommand` is not
data and is omitted. -/
structure config where
  Next : String
  Previous : String
  Commands : List (String × String)
  Pokedex : List (String × pokemonData)
  Current : String
deriving DecidableEq, Repr

/-- The anonymous struct `json.Unmarshal` fills in `determineCatchResult`:
name, height, weight, base experience, the `(stat name, base_stat)` pairs
and the type names, in payload order. -/
structure parsedPokemon where
  name : String
  height : Int
  weight : Int
  baseExperience : Int
  stats : List (String × Int)
  types : List String
deriving DecidableEq, Repr

/-- `determineCatchResult` from `main.go`.  `decode` is the
`json.Unmarshal` oracle (error exactly when the payload cannot be
decoded); `caught` is the outcome of the random draw
`rand.Float64() < 100.0/float64(result.BaseExperience)`, passed in as an
oracle because it is nondeterministic floating point.  On a decode error
the function returns the error and touches nothing; on an escape it
prints and touches nothing; on a catch it writes exactly
`cfg.Pokedex[pokemonName]`. -/
def determineCatchResult (decode : List Nat → Except String parsedPokemon)
    (caught : Bool) (cfg : config) (pokemonName : String) (data : List Nat) :
    config × Except String Unit :=
  match decode data with
  | .error e => (cfg, .error ("failed to parse Pokemon data: " ++ e))
  | .ok result =>
    if caught then
      let stats := result.stats.foldl (fun m s => mapInsert m s.1 s.2) []
      ({ cfg with
          Pokedex := mapInsert cfg.Pokedex pokemonName
            { Name := result.name, Height := result.height,
              Weight := result.weight, Stats := stats,
              Types := result.types } },
        .ok ())
    else
      (cfg, .ok ())

/-- `commandCatchWithCache` from `main.go`.  `fetch` is the combined
HTTP oracle (`http.Get` + status check + `io.ReadAll`), consulted only on
a cache miss; `now` is the clock reading at the `cache.Add` call.  The
lowercased first argument names the Pokémon; the result is the updated
config, the updated cache, and the error value. -/
def commandCatchWithCache (decode : List Nat → Except String parsedPokemon)
    (caught : Bool) (fetch : Except String (List Nat))
    (cfg : config) (args : List String) (cache : Cache) (now : Nat) :
    config × Cache × Except String Unit :=
  match args with
  | [] => (cfg, cache, .error "you must specify a Pokemon to catch")
  | arg :: _ =>
    let pokemonName := stringsToLower arg
    let apiURL := "https://pokeapi.co/api/v2/pokemon/" ++ pokemonName
    match cache.Get apiURL with
    | (v, true) =>
      let r := determineCatchResult decode caught cfg pokemonName v
      (r.1, cache, r.2)
    | (_, false) =>
      match fetch with
      | .error e => (cfg, cache, .error e)
      | .ok body =>
        let cache₁ := cache.Add apiURL body now
        let r := determineCatchResult decode caught cfg pokemonName body
        (r.1, cache₁, r.2)

/-- `commandInspect` from `main.go`.  The returned `Bool` records which
branch printed: `true` when the lowercased argument is a Pokedex key and
the details were printed, `false` otherwise. -/
def commandInspect (cfg : config) (args : List String) :
    Bool × Except String Unit :=
  match args with
  | [] => (false, .error "you must specify a Pokemon to inspect")
  | arg :: _ =>
    let pokemonName := stringsToLower arg
    match mapFind cfg.Pokedex pokemonName with
    | some _ => (true, .ok ())
    | none => (false, .ok ())

/-! ## Helper lemmas: association-list maps -/

theorem mapFind_insert_self {α : Type} (l : List (String × α)) (k : String) (v : α) :
    mapFind (mapInsert l k v) k = some v := by
  simp [mapInsert, mapFind]

theorem mapFind_erase_ne {α : Type} (l : List (String × α)) (k k₁ : String)
    (h : k₁ ≠ k) : mapFind (mapErase l k) k₁ = mapFind l k₁ := by
  induction l with
  | nil => rfl
  | cons p rest ih =>
    obtain ⟨a, b⟩ := p
    by_cases ha : a = k
    · subst ha
      have hak : ¬ (a = k₁) := fun hh => h hh.symm
      simp [mapErase, mapFind, hak]
      exact ih
    · by_cases hak : a = k₁
      · simp [mapErase, ha, mapFind, hak, h]
      · simp [mapErase, ha, mapFind, hak]
        exact ih

theorem mapFind_erase_self {α : Type} (l : List (String × α)) (k : String) :
    mapFind (mapErase l k) k = none := by
  induction l with
  | nil => rfl
  | cons p rest ih =>
    obtain ⟨a, b⟩ := p
    by_cases ha : a = k
    · simpa [mapErase, ha] using ih
    · simp [mapErase, ha, mapFind]
      exact ih

theorem mapFind_insert_ne {α : Type} (l : List (String × α)) (k k₁ : String)
    (v : α) (h : k₁ ≠ k) :
    mapFind (mapInsert l k v) k₁ = mapFind l k₁ := by
  have hk : k ≠ k₁ := fun hh => h hh.symm
  simp [mapInsert, mapFind, hk]
  exact mapFind_erase_ne l k k₁ h

theorem mapFind_none_filter {α : Type} (l : List (String × α)) (k : String)
    (q : String × α → Bool) (h : mapFind l k = none) :
    mapFind (l.filter q) k = none := by
  induction l with
  | nil => rfl
  | cons p rest ih =>
    obtain ⟨a, b⟩ := p
    by_cases ha : a = k
    · simp [mapFind, ha] at h
    · simp [mapFind, ha] at h
      by_cases hq : q (a, b)
      · simpa [List.filter_cons, hq, mapFind, ha] using ih h
      · simpa [List.filter_cons, hq] using ih h

theorem mapFind_filter_of_keep {α : Type} (l : List (String × α)) (k : String)
    (v : α) (q : String × α → Bool) (hf : mapFind l k = some v)
    (hq : q (k, v) = true) : mapFind (l.filter q) k = some v := by
  induction l with
  | nil => simp [mapFind] at hf
  | cons p rest ih =>
    obtain ⟨a, b⟩ := p
    by_cases ha : a = k
    · subst ha
      simp [mapFind] at hf
      subst hf
      simp [List.filter_cons, hq, mapFind]
    · simp [mapFind, ha] at hf
      by_cases hb : q (a, b)
      · simpa [List.filter_cons, hb, mapFind, ha] using ih hf
      · simpa [List.filter_cons, hb] using ih hf

/-! ## Helper lemmas: cache operations -/

theorem Get_Add_self (c : Cache) (k : String) (v : List Nat) (t : Nat) :
    (c.Add k v t).Get k = (v, true) := by
  simp [Cache.Add, Cache.Get, mapFind_insert_self]

theorem Get_Add_ne (c : Cache) (k k₁ : String) (v : List Nat) (t : Nat)
    (h : k₁ ≠ k) : (c.Add k v t).Get k₁ = c.Get k₁ := by
  simp [Cache.Add, Cache.Get, mapFind_insert_ne _ _ _ _ h]

theorem Get_of_mapFind_none (c : Cache) (k : String)
    (h : mapFind c.entries k = none) : c.Get k = ([], false) := by
  simp [Cache.Get, h]

theorem mapFind_reap_keep (c : Cache) (k : String) (e : cacheEntry)
    (now : Nat) (hf : mapFind c.entries k = some e)
    (hage : now - e.createdAt < c.interval) :
    mapFind (c.reap now).entries k = some e := by
  exact mapFind_filter_of_keep _ _ _ _ hf (by simpa using hage)

theorem reap_Add_expired (c : Cache) (k : String) (v : List Nat)
    (t now : Nat) (h : c.interval ≤ now - t) :
    ((c.Add k v t).reap now).Get k = ([], false) := by
  apply Get_of_mapFind_none
  have he : ((c.Add k v t).reap now).entries =
      ((k, (⟨t, v⟩ : cacheEntry)) :: mapErase c.entries k).filter
        (fun p => now - p.2.createdAt < c.interval) := rfl
  rw [he, List.filter_cons]
  have hdrop : ¬ (now - t < c.interval) := by omega
  rw [if_neg (by simpa using hdrop)]
  exact mapFind_none_filter _ _ _ (mapFind_erase_self c.entries k)

theorem reap_interval (c : Cache) (now : Nat) :
    (c.reap now).interval = c.interval := rfl

theorem Add_interval (c : Cache) (k : String) (v : List Nat) (t : Nat) :
    (c.Add k v t).interval = c.interval := rfl

theorem applyOp_interval (c : Cache) (op : CacheOp) :
    (applyOp c op).interval = c.interval := by
  cases op <;> rfl

theorem applyOps_cons (c : Cache) (op : CacheOp) (rest : List CacheOp) :
    applyOps c (op :: rest) = applyOps (applyOp c op) rest := rfl

theorem applyOps_mapFind_none (ops : List CacheOp) (c : Cache) (k : String)
    (h : mapFind c.entries k = none)
    (hadd : ∀ v t, CacheOp.add k v t ∉ ops) :
    mapFind (applyOps c ops).entries k = none := by
  induction ops generalizing c with
  | nil => simpa [applyOps] using h
  | cons op rest ih =>
    have hrest : ∀ v t, CacheOp.add k v t ∉ rest :=
      fun v t hm => hadd v t (List.mem_cons_of_mem _ hm)
    have hstep : mapFind (applyOp c op).entries k = none := by
      cases op with
      | add k₁ v t =>
        have hk : k ≠ k₁ := fun hh => hadd v t (by rw [hh]; exact List.mem_cons_self _ _)
        simpa [applyOp, Cache.Add, mapFind_insert_ne _ _ _ _ hk] using h
      | get _ => simpa [applyOp] using h
      | reap t => simpa [applyOp, Cache.reap] using mapFind_none_filter _ _ _ h
    rw [applyOps_cons]
    exact ih _ hstep hrest

theorem applyOps_keep (ops : List CacheOp) (c : Cache) (k : String)
    (t : Nat) (v : List Nat) (hI : 0 < c.interval)
    (h : mapFind c.entries k = some ⟨t, v⟩)
    (hadd : ∀ k₁ v₁ t₁, CacheOp.add k₁ v₁ t₁ ∈ ops → k₁ ≠ k)
    (hreap : ∀ r, CacheOp.reap r ∈ ops → r < t + c.interval) :
    mapFind (applyOps c ops).entries k = some ⟨t, v⟩ := by
  induction ops generalizing c with
  | nil => simpa [applyOps] using h
  | cons op rest ih =>
    have hstep : mapFind (applyOp c op).entries k = some ⟨t, v⟩ := by
      cases op with
      | add k₁ v₁ t₁ =>
        have hk : k ≠ k₁ :=
          fun hh => (hadd k₁ v₁ t₁ (List.mem_cons_self _ _)) hh.symm
        simpa [applyOp, Cache.Add, mapFind_insert_ne _ _ _ _ hk] using h
      | get _ => simpa [applyOp] using h
      | reap r =>
        have hr : r < t + c.interval :=
          hreap r (List.mem_cons_self _ _)
        have hage : r - t < c.interval := by omega
        exact mapFind_reap_keep c k ⟨t, v⟩ r h hage
    rw [applyOps_cons]
    have hint : (applyOp c op).interval = c.interval := applyOp_interval c op
    exact ih _ (hint ▸ hI) hstep
      (fun k₁ v₁ t₁ hm => hadd k₁ v₁ t₁ (List.mem_cons_of_mem _ hm))
      (fun r hm => hint ▸ hreap r (List.mem_cons_of_mem _ hm))

/-! ## Claim theorems: the expiring cache (C1–C7) -/

/-- C1: for every key `k`, value `v` and cache state, `store(k, v)`
immediately followed by `lookup(k)` on the same cache returns
`(v, true)`. -/
theorem store_then_lookup_returns_value (c : Cache) (k : String)
    (v : List Nat) (t : Nat) : (c.Add k v t).Get k = (v, true) :=
  Get_Add_self c k v t

/-- C2: with interval `T`, after `store(k, v)` at time `t₀` every lookup
taken after any sequence of reap ticks all strictly before `t₀ + T`
returns `(v, true)`, and a lookup taken after a reap tick at or past
`t₀ + T` returns `([], false)`; in particular with the test's 2-second
interval, storing `"test-key" ↦ "test-value"` at time 0, the immediate
lookup succeeds with that value and, after the reap tick at time 2 that
runs during the 3-second sleep, the lookup fails. -/
theorem ttl_window_bounds_lookup :
    (∀ (T t₀ : Nat) (k : String) (v : List Nat) (rs : List Nat),
      0 < T → (∀ r ∈ rs, r < t₀ + T) →
      (applyOps ((NewCache T).Add k v t₀) (rs.map CacheOp.reap)).Get k =
        (v, true)) ∧
    (∀ (T t₀ : Nat) (k : String) (v : List Nat) (r : Nat),
      t₀ + T ≤ r →
      (((NewCache T).Add k v t₀).reap r).Get k = ([], false)) ∧
    ((NewCache 2).Add "test-key" (strBytes "test-value") 0).Get "test-key" =
      (strBytes "test-value", true) ∧
    (((NewCache 2).Add "test-key" (strBytes "test-value") 0).reap 2).Get
      "test-key" = ([], false) := by
  refine ⟨?_, ?_, by rfl, by rfl⟩
  · intro T t₀ k v rs hT hrs
    have hfind : mapFind ((NewCache T).Add k v t₀).entries k =
        some ⟨t₀, v⟩ := mapFind_insert_self _ _ _
    have hkeep := applyOps_keep (rs.map CacheOp.reap)
      ((NewCache T).Add k v t₀) k t₀ v hT hfind
      (by intro k₁ v₁ t₁ hm; simp at hm)
      (by
        intro r hm
        simp only [List.mem_map] at hm
        obtain ⟨a, ha, he⟩ := hm
        injection he with h1
        exact h1 ▸ hrs a ha)
    simp [Cache.Get, hkeep]
  · intro T t₀ k v r hr
    exact reap_Add_expired _ _ _ _ _ (by simp [NewCache, Cache.Add]; omega)

/-- C2 witness: the test scenario instantiates both universally
quantified parts — a reap tick at time 1 (before `0 + 2`) keeps the
entry, and the tick at time 2 (at `0 + 2`) removes it. -/
theorem ttl_window_bounds_lookup_witness :
    (applyOps ((NewCache 2).Add "test-key" (strBytes "test-value") 0)
      ([1].map CacheOp.reap)).Get "test-key" = (strBytes "test-value", true) ∧
    (((NewCache 2).Add "test-key" (strBytes "test-value") 0).reap 3).Get
      "test-key" = ([], false) :=
  ⟨ttl_window_bounds_lookup.1 2 0 "test-key" (strBytes "test-value") [1]
      (by decide) (by decide),
    ttl_window_bounds_lookup.2.1 2 0 "test-key" (strBytes "test-value") 3
      (by decide)⟩

/-- C3: `store(k, v₁)` then `store(k, v₂)` then `lookup(k)` returns
`(v₂, true)`; the surviving entry carries the second store's timestamp
`t₂`, so a reap tick at time `r` keeps the entry exactly while
`r - t₂ < interval` — the TTL clock restarts from `t₂`. -/
theorem overwrite_replaces_value_and_restarts_ttl (c : Cache) (k : String)
    (v₁ v₂ : List Nat) (t₁ t₂ r : Nat) :
    ((c.Add k v₁ t₁).Add k v₂ t₂).Get k = (v₂, true) ∧
    mapFind ((c.Add k v₁ t₁).Add k v₂ t₂).entries k = some ⟨t₂, v₂⟩ ∧
    (((c.Add k v₁ t₁).Add k v₂ t₂).reap r).Get k =
      (if r - t₂ < c.interval then (v₂, true) else ([], false)) := by
  refine ⟨Get_Add_self _ _ _ _, mapFind_insert_self _ _ _, ?_⟩
  by_cases hage : r - t₂ < c.interval
  · have hkeep := mapFind_reap_keep ((c.Add k v₁ t₁).Add k v₂ t₂) k
      ⟨t₂, v₂⟩ r (mapFind_insert_self _ _ _) hage
    simp [Cache.Get, hkeep, if_pos hage]
  · rw [if_neg hage]
    have hint : (c.Add k v₁ t₁).interval = c.interval := rfl
    exact reap_Add_expired _ _ _ _ _ (by rw [hint]; omega)

/-- C4: `lookup(k)` returns the stored value and `true` whenever `k` is
present, even when the entry's age already exceeds the interval (the
lookup never reads the clock), and returns the zero value and `false`
exactly when `k` is absent; expiry is enforced only by reap ticks. -/
theorem lookup_ignores_expiry :
    (∀ (c : Cache) (k : String) (e : cacheEntry) (now : Nat),
      mapFind c.entries k = some e → c.interval ≤ now - e.createdAt →
      c.Get k = (e.val, true)) ∧
    (∀ (c : Cache) (k : String),
      mapFind c.entries k = none → c.Get k = ([], false)) := by
  constructor
  · intro c k e now hf _
    simp [Cache.Get, hf]
  · intro c k hf
    simp [Cache.Get, hf]

/-- C4 witness: a one-entry cache with interval 1 whose entry is 5 ticks
old is still served by `lookup`, and a missing key reports `false`. -/
theorem lookup_ignores_expiry_witness :
    (Cache.Get ⟨1, [("stale", ⟨0, [7]⟩)]⟩ "stale" = ([7], true)) ∧
    (Cache.Get ⟨1, []⟩ "missing" = ([], false)) :=
  ⟨lookup_ignores_expiry.1 ⟨1, [("stale", ⟨0, [7]⟩)]⟩ "stale" ⟨0, [7]⟩ 5
      rfl (by decide),
    lookup_ignores_expiry.2 ⟨1, []⟩ "missing" rfl⟩

/-- C5: for every key never stored by any operation of the trace,
`lookup(k)` on the cache reached from a fresh cache returns
`(_, false)`. -/
theorem lookup_of_never_stored_key_fails (T : Nat) (k : String)
    (ops : List CacheOp) (hadd : ∀ v t, CacheOp.add k v t ∉ ops) :
    (applyOps (NewCache T) ops).Get k = ([], false) :=
  Get_of_mapFind_none _ _ (applyOps_mapFind_none ops (NewCache T) k rfl hadd)

/-- C5 witness: a trace that stores a different key, reaps and looks up
still reports `false` for the never-stored key. -/
theorem lookup_of_never_stored_key_fails_witness :
    (applyOps (NewCache 5)
      [CacheOp.add "other" [1] 0, CacheOp.reap 3, CacheOp.get "k"]).Get "k" =
      ([], false) :=
  lookup_of_never_stored_key_fails 5 "k"
    [CacheOp.add "other" [1] 0, CacheOp.reap 3, CacheOp.get "k"]
    (by intro v t hm; simp at hm)

/-- C6: a reap tick at time `now` keeps exactly the entries whose age
`now - createdAt` is below the interval and removes the rest; in the
5-second scenario, after storing `"A"` at 0 and `"B"` at 1, the tick at
time 5 removes `"A"` while `"B"` is still present. -/
theorem reap_removes_exactly_expired :
    (∀ (c : Cache) (now : Nat) (p : String × cacheEntry),
      p ∈ (c.reap now).entries ↔
        p ∈ c.entries ∧ now - p.2.createdAt < c.interval) ∧
    ((((NewCache 5).Add "A" (strBytes "A-val") 0).Add "B" (strBytes "B-val")
        1).reap 5).Get "A" = ([], false) ∧
    ((((NewCache 5).Add "A" (strBytes "A-val") 0).Add "B" (strBytes "B-val")
        1).reap 5).Get "B" = (strBytes "B-val", true) := by
  refine ⟨?_, by rfl, by rfl⟩
  intro c now p
  simp [Cache.reap, List.mem_filter]

/-- C7: in any serialised interleaving of operations between a caller's
`store(k, v)` at time `t` and its `lookup(k)` — stores by other callers
on other keys, lookups, and reap ticks that run before `k`'s expiry —
the caller observes its own value `(v, true)`; keys being distinct, no
interleaved store can touch `k`'s entry. -/
theorem concurrent_distinct_stores_observe_own_value (c : Cache)
    (k : String) (v : List Nat) (t : Nat) (ops : List CacheOp)
    (hI : 0 < c.interval)
    (hadd : ∀ k₁ v₁ t₁, CacheOp.add k₁ v₁ t₁ ∈ ops → k₁ ≠ k)
    (hreap : ∀ r, CacheOp.reap r ∈ ops → r < t + c.interval) :
    (applyOps (c.Add k v t) ops).Get k = (v, true) := by
  have hkeep := applyOps_keep ops (c.Add k v t) k t v hI
    (mapFind_insert_self _ _ _) hadd hreap
  simp [Cache.Get, hkeep]

/-- C7 witness: two callers store distinct keys at time 0 and a reap
tick runs at time 3, inside the 5-tick interval; the first caller's
lookup still observes its own value. -/
theorem concurrent_distinct_stores_observe_own_value_witness :
    (applyOps ((NewCache 5).Add "k1" [1] 0)
      [CacheOp.add "k2" [2] 0, CacheOp.reap 3, CacheOp.get "k2"]).Get "k1" =
      ([1], true) :=
  concurrent_distinct_stores_observe_own_value (NewCache 5) "k1" [1] 0
    [CacheOp.add "k2" [2] 0, CacheOp.reap 3, CacheOp.get "k2"]
    (by decide)
    (by
      intro k₁ v₁ t₁ hm
      simp at hm
      obtain ⟨hk, -, -⟩ := hm
      subst hk
      decide)
    (by
      intro r hm
      simp at hm
      subst hm
      decide)

/-! ## Helper lemmas: characters and strings -/

theorem char_ofNat_upper_toNat (n : Nat) (h₁ : 65 ≤ n) (h₂ : n ≤ 90) :
    (Char.ofNat (n + 32)).toNat = n + 32 := by
  interval_cases n <;> decide

theorem char_toLower_eq (c : Char) :
    Char.toLower c =
      if 65 ≤ c.toNat ∧ c.toNat ≤ 90 then Char.ofNat (c.toNat + 32) else c :=
  rfl

theorem char_toLower_not_upper (c : Char) :
    ¬ (65 ≤ (Char.toLower c).toNat ∧ (Char.toLower c).toNat ≤ 90) := by
  rw [char_toLower_eq]
  by_cases h : 65 ≤ c.toNat ∧ c.toNat ≤ 90
  · rw [if_pos h, char_ofNat_upper_toNat c.toNat h.1 h.2]
    omega
  · rw [if_neg h]
    exact h

theorem char_toLower_of_not_upper (c : Char)
    (h : ¬ (65 ≤ c.toNat ∧ c.toNat ≤ 90)) : Char.toLower c = c := by
  rw [char_toLower_eq, if_neg h]

theorem char_toLower_idem (c : Char) :
    Char.toLower (Char.toLower c) = Char.toLower c :=
  char_toLower_of_not_upper _ (char_toLower_not_upper c)

theorem char_toLower_of_space (c : Char) (h : unicodeIsSpace c = true) :
    Char.toLower c = c := by
  apply char_toLower_of_not_upper
  simp only [unicodeIsSpace, decide_eq_true_eq] at h
  rcases h with h | h | h | h | h | h | h | h | h | h | h <;> omega

theorem stringsToLower_data (s : String) :
    (stringsToLower s).data = s.data.map Char.toLower := rfl

theorem stringsToLower_idem (s : String) :
    stringsToLower (stringsToLower s) = stringsToLower s := by
  apply congrArg String.mk
  rw [stringsToLower_data, List.map_map]
  exact List.map_congr_left fun c _ => char_toLower_idem c

/-! ## Helper lemmas: fields and cleanInput -/

theorem fieldsAux_spec (l : List Char) :
    ∀ (acc : List Char), (∀ c ∈ acc, unicodeIsSpace c = false) →
    ∀ w ∈ fieldsAux l acc,
      w ≠ [] ∧ ∀ c ∈ w, unicodeIsSpace c = false ∧ (c ∈ acc ∨ c ∈ l) := by
  induction l with
  | nil =>
    intro acc hacc w hw
    by_cases he : acc.isEmpty = true
    · simp [fieldsAux, he] at hw
    · simp [fieldsAux, he] at hw
      subst hw
      refine ⟨?_, ?_⟩
      · intro h0
        rw [List.reverse_eq_nil_iff] at h0
        rw [h0] at he
        simp at he
      · intro c hc
        rw [List.mem_reverse] at hc
        exact ⟨hacc c hc, Or.inl hc⟩
  | cons a as ih =>
    intro acc hacc w hw
    by_cases hs : unicodeIsSpace a = true
    · by_cases he : acc.isEmpty = true
      · simp [fieldsAux, hs, he] at hw
        have h := ih [] (by simp) w hw
        refine ⟨h.1, fun c hc => ⟨(h.2 c hc).1, ?_⟩⟩
        rcases (h.2 c hc).2 with h1 | h1
        · simp at h1
        · exact Or.inr (List.mem_cons_of_mem _ h1)
      · simp [fieldsAux, hs, he] at hw
        rcases hw with hw | hw
        · subst hw
          refine ⟨?_, ?_⟩
          · intro h0
            rw [List.reverse_eq_nil_iff] at h0
            rw [h0] at he
            simp at he
          · intro c hc
            rw [List.mem_reverse] at hc
            exact ⟨hacc c hc, Or.inl hc⟩
        · have h := ih [] (by simp) w hw
          refine ⟨h.1, fun c hc => ⟨(h.2 c hc).1, ?_⟩⟩
          rcases (h.2 c hc).2 with h1 | h1
          · simp at h1
          · exact Or.inr (List.mem_cons_of_mem _ h1)
    · simp [fieldsAux, hs] at hw
      have hacc' : ∀ c ∈ a :: acc, unicodeIsSpace c = false := by
        intro c hc
        rcases List.mem_cons.mp hc with h1 | h1
        · subst h1
          simpa using hs
        · exact hacc c h1
      have h := ih (a :: acc) hacc' w hw
      refine ⟨h.1, fun c hc => ⟨(h.2 c hc).1, ?_⟩⟩
      rcases (h.2 c hc).2 with h1 | h1
      · rcases List.mem_cons.mp h1 with h2 | h2
        · subst h2
          exact Or.inr (List.mem_cons_self _ _)
        · exact Or.inl h2
      · exact Or.inr (List.mem_cons_of_mem _ h1)

theorem cleanInput_words_clean (text : String) :
    ∀ w ∈ cleanInput text, w.data ≠ [] ∧
      ∀ c ∈ w.data, unicodeIsSpace c = false ∧
        ¬ (65 ≤ c.toNat ∧ c.toNat ≤ 90) := by
  intro w hw
  simp only [cleanInput, stringsFields, List.mem_map] at hw
  obtain ⟨w₁, hw₁, hmk⟩ := hw
  have h := fieldsAux_spec _ [] (by simp) w₁ hw₁
  have hdata : w.data = w₁ := by rw [← hmk]
  rw [hdata]
  refine ⟨h.1, fun c hc => ⟨(h.2 c hc).1, ?_⟩⟩
  rcases (h.2 c hc).2 with h1 | h1
  · simp at h1
  · rw [stringsToLower_data, List.mem_map] at h1
    obtain ⟨d, -, hd⟩ := h1
    rw [← hd]
    exact char_toLower_not_upper d

theorem trimSpace_all_space (text : String)
    (h : ∀ c ∈ text.data, unicodeIsSpace c = true) :
    (stringsTrimSpace text).data = [] := by
  have h1 : text.data.dropWhile unicodeIsSpace = [] :=
    List.dropWhile_eq_nil_iff.mpr h
  show (((text.data.dropWhile unicodeIsSpace).reverse.dropWhile
      unicodeIsSpace).reverse) = []
  rw [h1]
  rfl

theorem cleanInput_all_space (text : String)
    (h : ∀ c ∈ text.data, unicodeIsSpace c = true) :
    cleanInput text = [] := by
  have h1 : (stringsToLower (stringsTrimSpace text)).data = [] := by
    rw [stringsToLower_data, trimSpace_all_space text h]
    rfl
  show (fieldsAux (stringsToLower (stringsTrimSpace text)).data []).map _ = []
  rw [h1]
  rfl

/-! ## Claim theorem: cleanInput and the REPL (C10) -/

/-- C10: every word `cleanInput` returns is nonempty and contains no
white-space character and no uppercase ASCII letter; an input that is
empty or all white space yields `[]`, on which the REPL loop dispatches
no command; the two `TestCleanInput` vectors evaluate as the test
expects. -/
theorem cleanInput_returns_clean_words :
    (∀ (text : String), ∀ w ∈ cleanInput text, w.data ≠ [] ∧
      ∀ c ∈ w.data, unicodeIsSpace c = false ∧
        ¬ (65 ≤ c.toNat ∧ c.toNat ≤ 90)) ∧
    (∀ (text : String), (∀ c ∈ text.data, unicodeIsSpace c = true) →
      cleanInput text = [] ∧ replDispatch text = none) ∧
    cleanInput "  hello  world  " = ["hello", "world"] ∧
    cleanInput "Charmander Bulbasaur PIKACHU" =
      ["charmander", "bulbasaur", "pikachu"] := by
  refine ⟨cleanInput_words_clean, ?_, by rfl, by rfl⟩
  intro text h
  have h1 := cleanInput_all_space text h
  exact ⟨h1, by simp [replDispatch, h1]⟩

/-- C10 witness: the word `"ab"` produced from input `"Ab"` is nonempty,
and the all-blank input `"   "` produces no words and dispatches no
command. -/
theorem cleanInput_returns_clean_words_witness :
    ("ab".data ≠ [] ∧ cleanInput "   " = [] ∧ replDispatch "   " = none) :=
  ⟨(cleanInput_returns_clean_words.1 "Ab" "ab" (by decide)).1,
    (cleanInput_returns_clean_words.2.1 "   " (by decide)).1,
    (cleanInput_returns_clean_words.2.1 "   " (by decide)).2⟩

/-! ## Helper lemmas: catch and inspect -/

theorem mem_mapErase {α : Type} (l : List (String × α)) (k : String)
    (p : String × α) (h : p ∈ mapErase l k) : p ∈ l := by
  induction l with
  | nil => simp [mapErase] at h
  | cons q rest ih =>
    obtain ⟨a, b⟩ := q
    by_cases ha : a = k
    · simp only [mapErase, if_pos ha] at h
      exact List.mem_cons_of_mem _ (ih h)
    · simp only [mapErase, if_neg ha, List.mem_cons] at h
      rcases h with h | h
      · exact h ▸ List.mem_cons_self _ _
      · exact List.mem_cons_of_mem _ (ih h)

theorem mem_mapInsert {α : Type} (l : List (String × α)) (k : String)
    (v : α) (p : String × α) (h : p ∈ mapInsert l k v) :
    p = (k, v) ∨ p ∈ l := by
  rcases List.mem_cons.mp h with h₁ | h₁
  · exact Or.inl h₁
  · exact Or.inr (mem_mapErase l k p h₁)

theorem determineCatchResult_pokedex
    (decode : List Nat → Except String parsedPokemon) (caught : Bool)
    (cfg : config) (name : String) (data : List Nat) :
    (determineCatchResult decode caught cfg name data).1.Pokedex =
      cfg.Pokedex ∨
    ∃ d, (determineCatchResult decode caught cfg name data).1.Pokedex =
      mapInsert cfg.Pokedex name d := by
  cases hd : decode data with
  | error e => exact Or.inl (by simp [determineCatchResult, hd])
  | ok r =>
    cases caught with
    | false => exact Or.inl (by simp [determineCatchResult, hd])
    | true =>
      refine Or.inr ⟨pokemonData.mk r.name r.height r.weight
        (r.stats.foldl (fun m s => mapInsert m s.1 s.2) []) r.types, ?_⟩
      simp [determineCatchResult, hd]

theorem catch_cons_pokedex
    (decode : List Nat → Except String parsedPokemon) (caught : Bool)
    (fetch : Except String (List Nat)) (cfg : config) (a : String)
    (rest : List String) (cache : Cache) (now : Nat) :
    (commandCatchWithCache decode caught fetch cfg (a :: rest) cache
        now).1.Pokedex = cfg.Pokedex ∨
    ∃ d, (commandCatchWithCache decode caught fetch cfg (a :: rest) cache
        now).1.Pokedex = mapInsert cfg.Pokedex (stringsToLower a) d := by
  rcases hg : cache.Get ("https://pokeapi.co/api/v2/pokemon/" ++
      stringsToLower a) with ⟨v, b⟩
  cases b
  · cases fetch with
    | error e => exact Or.inl (by simp [commandCatchWithCache, hg])
    | ok body =>
      have he : (commandCatchWithCache decode caught (Except.ok body) cfg
          (a :: rest) cache now).1 =
          (determineCatchResult decode caught cfg (stringsToLower a)
            body).1 := by
        simp [commandCatchWithCache, hg]
      rw [he]
      exact determineCatchResult_pokedex decode caught cfg
        (stringsToLower a) body
  · have he : (commandCatchWithCache decode caught fetch cfg (a :: rest)
        cache now).1 =
        (determineCatchResult decode caught cfg (stringsToLower a) v).1 := by
      simp [commandCatchWithCache, hg]
    rw [he]
    exact determineCatchResult_pokedex decode caught cfg (stringsToLower a) v

/-! ## Claim theorems: catch and inspect (C8, C9) -/

/-- C8: `determineCatchResult` touches `cfg.Pokedex` only on a successful
catch — on a failed random draw or an undecodable payload the Pokedex is
unchanged — and in every case the `Next`, `Previous`, `Commands` and
`Current` fields of the config are unchanged. -/
theorem determineCatchResult_frame
    (decode : List Nat → Except String parsedPokemon) (caught : Bool)
    (cfg : config) (name : String) (data : List Nat) :
    ((determineCatchResult decode caught cfg name data).1.Next = cfg.Next ∧
      (determineCatchResult decode caught cfg name data).1.Previous =
        cfg.Previous ∧
      (determineCatchResult decode caught cfg name data).1.Commands =
        cfg.Commands ∧
      (determineCatchResult decode caught cfg name data).1.Current =
        cfg.Current) ∧
    (caught = false →
      (determineCatchResult decode caught cfg name data).1.Pokedex =
        cfg.Pokedex) ∧
    (∀ msg, decode data = Except.error msg →
      (determineCatchResult decode caught cfg name data).1.Pokedex =
        cfg.Pokedex) := by
  cases hd : decode data with
  | error e => refine ⟨?_, ?_, ?_⟩ <;> simp [determineCatchResult, hd]
  | ok r =>
    cases caught with
    | false => refine ⟨?_, ?_, ?_⟩ <;> simp [determineCatchResult, hd]
    | true =>
      refine ⟨?_, ?_, ?_⟩
      · simp [determineCatchResult, hd]
      · intro h
        simp at h
      · intro msg hmsg
        simp at hmsg

/-- C8 witness: with an always-failing decoder and a failed draw, a
concrete config keeps its Pokedex entry and its `Next` field. -/
theorem determineCatchResult_frame_witness :
    (determineCatchResult (fun _ => Except.error "bad") false
      (config.mk "n" "p" [] [("x", pokemonData.mk "x" 1 1 [] [])] "c")
      "pikachu" []).1.Pokedex = [("x", pokemonData.mk "x" 1 1 [] [])] ∧
    (determineCatchResult (fun _ => Except.error "bad") false
      (config.mk "n" "p" [] [("x", pokemonData.mk "x" 1 1 [] [])] "c")
      "pikachu" []).1.Next = "n" :=
  ⟨(determineCatchResult_frame (fun _ => Except.error "bad") false
      (config.mk "n" "p" [] [("x", pokemonData.mk "x" 1 1 [] [])] "c")
      "pikachu" []).2.1 rfl,
    (determineCatchResult_frame (fun _ => Except.error "bad") false
      (config.mk "n" "p" [] [("x", pokemonData.mk "x" 1 1 [] [])] "c")
      "pikachu" []).1.1⟩

/-- C9: the only key `commandCatchWithCache` can add to the Pokedex is
the lowercased form of its first argument; hence a Pokedex whose keys
are all lowercase stays that way through any catch; and a Pokémon caught
under one case variant of a name is found by `commandInspect` under any
other case variant, because inspect also lowercases its argument. -/
theorem catch_and_inspect_lowercase_keys :
    (∀ (decode : List Nat → Except String parsedPokemon) (caught : Bool)
        (fetch : Except String (List Nat)) (cfg : config) (a : String)
        (rest : List String) (cache : Cache) (now : Nat),
      (commandCatchWithCache decode caught fetch cfg (a :: rest) cache
          now).1.Pokedex = cfg.Pokedex ∨
      ∃ d, (commandCatchWithCache decode caught fetch cfg (a :: rest) cache
          now).1.Pokedex = mapInsert cfg.Pokedex (stringsToLower a) d) ∧
    (∀ (decode : List Nat → Except String parsedPokemon) (caught : Bool)
        (fetch : Except String (List Nat)) (cfg : config)
        (args : List String) (cache : Cache) (now : Nat),
      (∀ p ∈ cfg.Pokedex, stringsToLower p.1 = p.1) →
      ∀ p ∈ (commandCatchWithCache decode caught fetch cfg args cache
          now).1.Pokedex, stringsToLower p.1 = p.1) ∧
    (∀ (ph : parsedPokemon) (body : List Nat) (cfg : config)
        (cache : Cache) (now : Nat) (a b : String)
        (rest rest₁ : List String),
      stringsToLower a = stringsToLower b →
      (commandInspect
        (commandCatchWithCache (fun _ => Except.ok ph) true
          (Except.ok body) cfg (a :: rest) cache now).1
        (b :: rest₁)).1 = true) := by
  refine ⟨catch_cons_pokedex, ?_, ?_⟩
  · intro decode caught fetch cfg args cache now hinv p hp
    cases args with
    | nil => exact hinv p hp
    | cons a rest =>
      rcases catch_cons_pokedex decode caught fetch cfg a rest cache now
        with h | ⟨d, h⟩
      · rw [h] at hp
        exact hinv p hp
      · rw [h] at hp
        rcases mem_mapInsert _ _ _ _ hp with h₁ | h₁
        · rw [h₁]
          exact stringsToLower_idem a
        · exact hinv p h₁
  · intro ph body cfg cache now a b rest rest₁ hab
    have hPok : (commandCatchWithCache (fun _ => Except.ok ph) true
        (Except.ok body) cfg (a :: rest) cache now).1.Pokedex =
        mapInsert cfg.Pokedex (stringsToLower a)
          (pokemonData.mk ph.name ph.height ph.weight
            (ph.stats.foldl (fun m s => mapInsert m s.1 s.2) []) ph.types)
        := by
      rcases hg : cache.Get ("https://pokeapi.co/api/v2/pokemon/" ++
          stringsToLower a) with ⟨v, bb⟩
      cases bb
      · simp [commandCatchWithCache, hg, determineCatchResult]
      · simp [commandCatchWithCache, hg, determineCatchResult]
    have hfind : mapFind (commandCatchWithCache (fun _ => Except.ok ph) true
        (Except.ok body) cfg (a :: rest) cache now).1.Pokedex
        (stringsToLower b) =
        some (pokemonData.mk ph.name ph.height ph.weight
          (ph.stats.foldl (fun m s => mapInsert m s.1 s.2) []) ph.types) := by
      rw [hPok, ← hab]
      exact mapFind_insert_self _ _ _
    simp [commandInspect, hfind]

/-- C9 witness: catching `"PIKACHU"` then inspecting `"Pikachu"` finds
the caught Pokémon. -/
theorem catch_and_inspect_lowercase_keys_witness :
    (commandInspect
      (commandCatchWithCache
        (fun _ => Except.ok (parsedPokemon.mk "pikachu" 4 60 112 [] []))
        true (Except.ok []) (config.mk "" "" [] [] "")
        ("PIKACHU" :: []) (NewCache 5) 0).1
      ("Pikachu" :: [])).1 = true :=
  catch_and_inspect_lowercase_keys.2.2
    (parsedPokemon.mk "pikachu" 4 60 112 [] []) [] (config.mk "" "" [] [] "")
    (NewCache 5) 0 "PIKACHU" "Pikachu" [] [] (by rfl)

end Pokedex
